import Mathlib

/-!
Verification development for the `element-ptr` crate pair: the proc macro
(`element-ptr-macro/src/lib.rs`) that parses the pointer-access notation and
lowers it to a sequence of typestate-wrapper operations, and the runtime
support library (`src/lib.rs`) providing the `Pointer<M, T>` wrapper, the
`CanIndex` capability and the `index` helper.

The embedding has four layers, each translated from the source:

1. a token model and the recursive-descent parser (`AccessList::parse`,
   `ElementAccess::parse`, `FieldAccess::parse`, `OffsetAccess::parse`,
   `CastAccess::parse`, `GroupAccess::parse`);
2. the code generator (`AccessListToTokensCtx::to_tokens`) producing the
   emitted statements (`let ptr = ...;` forms) plus the final expression,
   with the `dirty` flag threaded exactly as in the source;
3. a symbolic evaluator for the generated code: addresses are terms of a
   free algebra (`SymAddr`), the `ptr` binding holds either a typestate
   wrapper (`Pointer<M, T>`), a raw pointer produced by `into_inner`, or a
   plain value produced by `read`; mutability flavors are tracked.  The
   oracle `rho` gives the pointer flavor of a value read from memory (in
   Rust this is determined by the pointee type of the field that was read);
4. a concrete numeric model of the `helper::index` function and the pointer
   primitives it is built from (`into_const`, `cast`, `add`).

Rust sources are untyped token streams at this level, so the `Expr` inside
an index access or a parenthesized offset amount is modelled as the opaque
list of tokens it was parsed from, and a `Type` after `as` as a single
identifier; nothing in the verified claims depends on their inner
structure.
-/

namespace ElementPtr

/-- Token model of the macro input stream handed to `AccessList::parse`.
Bracket and paren groups carry their inner streams, as `proc_macro2`
delimiters do. -/
inductive Tok where
  | dot
  | star
  | plus
  | minus
  | fatArrow
  | kwU8
  | kwAs
  | ident (s : String)
  | int (n : Nat)
  | bracket (inner : List Tok)
  | paren (inner : List Tok)
deriving Repr

mutual

/-- Weight of a token: enough fuel for the parser loop to traverse it
(every successful parse step consumes at least one token). -/
def Tok.weight : Tok → Nat
  | .bracket inner => 1 + streamWeight inner
  | .paren inner => 1 + streamWeight inner
  | _ => 1

/-- Weight of a token stream. -/
def streamWeight : List Tok → Nat
  | [] => 0
  | t :: ts => 1 + t.weight + streamWeight ts

end

/-- A parse failure: `syn::Error` with its message and the remaining tokens
at the error position (the span). -/
structure PErr where
  msg : String
  rest : List Tok
deriving Repr

/-- `FieldAccessType` from the macro crate: named field, tuple index, or the
dereference marker `*`. -/
inductive FieldAccessType where
  | named (s : String)
  | tuple (n : Nat)
  | deref
deriving Repr

/-- `OffsetType`: the `+` or `-` after an optional `u8` byte marker. -/
inductive OffsetType where
  | add
  | sub
deriving Repr

/-- `OffsetValue`: a bare integer literal or a parenthesized expression
(kept as its token list). -/
inductive OffsetValue where
  | integer (n : Nat)
  | grouped (e : List Tok)
deriving Repr

/-- `ElementAccess` from the macro crate.  `field none` is the bare
trailing dot (`FieldAccess { field: None }`); `cast ty arrow` records
whether the `=>` continuation followed the cast; `group` holds the nested
access list.  An `AccessList` is the `Vec<ElementAccess>`. -/
inductive ElementAccess where
  | field (f : Option FieldAccessType)
  | idx (e : List Tok)
  | offset (byte : Bool) (ot : OffsetType) (v : OffsetValue)
  | cast (ty : String) (arrow : Bool)
  | group (inner : List ElementAccess)
deriving Repr

/-- `ElementAccess::is_final`: only a cast with no `=>` arrow is final. -/
def ElementAccess.is_final : ElementAccess → Bool
  | .cast _ arrow => !arrow
  | _ => false

/-- Message of the lookahead errors produced by `syn::parse::Lookahead1`;
its exact text is irrelevant to every claim, only that it is nonempty. -/
def lookaheadMsg : String := "expected one of"

/-- `OffsetType::parse`: lookahead on `+` / `-`. -/
def parseOffsetType : List Tok → Except PErr (OffsetType × List Tok)
  | .plus :: r => .ok (.add, r)
  | .minus :: r => .ok (.sub, r)
  | r => .error ⟨lookaheadMsg, r⟩

/-- `OffsetValue::parse`: a parenthesized expression or an integer
literal. -/
def parseOffsetValue : List Tok → Except PErr (OffsetValue × List Tok)
  | .paren inner :: r => .ok (.grouped inner, r)
  | .int n :: r => .ok (.integer n, r)
  | r => .error ⟨lookaheadMsg, r⟩

/-- `FieldAccessType::parse`: lookahead on `*`, identifier, or integer (the
three arms of the `Lookahead1` in the source). -/
def parseFieldAccessType : List Tok → Except PErr (FieldAccessType × List Tok)
  | .star :: r => .ok (.deref, r)
  | .ident s :: r => .ok (.named s, r)
  | .int n :: r => .ok (.tuple n, r)
  | r => .error ⟨lookaheadMsg, r⟩

/-- `FieldAccess::parse`: consume the dot; if the stream is exhausted the
field is `None` (the bare-trailing-dot node), otherwise parse a
`FieldAccessType`. -/
def parseFieldAfterDot : List Tok → Except PErr (ElementAccess × List Tok)
  | [] => .ok (.field none, [])
  | r =>
    match parseFieldAccessType r with
    | .ok (f, r2) => .ok (.field (some f), r2)
    | .error e => .error e

/-- `OffsetAccess::parse` after the optional `u8` keyword has been
consumed: mandatory sign, then the amount. -/
def parseOffsetTail (byte : Bool) (r : List Tok) :
    Except PErr (ElementAccess × List Tok) :=
  match parseOffsetType r with
  | .error e => .error e
  | .ok (ot, r2) =>
    match parseOffsetValue r2 with
    | .error e => .error e
    | .ok (v, r3) => .ok (.offset byte ot v, r3)

/-- `CastAccess::parse`: `as`, a type (modelled as one identifier), then an
optional `=>` arrow. -/
def parseCastTail : List Tok → Except PErr (ElementAccess × List Tok)
  | .ident ty :: .fatArrow :: r => .ok (.cast ty true, r)
  | .ident ty :: r => .ok (.cast ty false, r)
  | r => .error ⟨"expected a type", r⟩

/-- `ElementAccess::parse`, parameterized by the parser used for the inner
stream of a `GroupAccess` (`content.parse::<AccessList>()`); `none` is
fuel exhaustion of that inner parser.  Dispatch is by lookahead on the
first token exactly as the chain of `peek` calls in the source: `.`, `[`,
`u8` / `+` / `-`, `as`, `(`, otherwise the error
"expected valid element access". -/
def parseEAWith (pl : List Tok → Option (Except PErr (List ElementAccess))) :
    List Tok → Option (Except PErr (ElementAccess × List Tok))
  | .dot :: r => some (parseFieldAfterDot r)
  | .bracket inner :: r => some (.ok (.idx inner, r))
  | .kwU8 :: r => some (parseOffsetTail true r)
  | .plus :: r => some (parseOffsetTail false (.plus :: r))
  | .minus :: r => some (parseOffsetTail false (.minus :: r))
  | .kwAs :: r => some (parseCastTail r)
  | .paren inner :: r =>
    match pl inner with
    | none => none
    | some (.error e) => some (.error e)
    | some (.ok il) => some (.ok (.group il, r))
  | r => some (.error ⟨"expected valid element access", r⟩)

/-- The loop of `AccessList::parse`, fueled so that it is structurally
recursive (a successful step always consumes at least one token, so the
weight of the stream is always enough fuel).  While the stream is nonempty: parse one
access; if it reports itself final and tokens remain, fail with
`input.error("")` — the empty message at the position of the remaining
tokens; otherwise push and continue. -/
def parseListGo : Nat → List Tok → Option (Except PErr (List ElementAccess))
  | _, [] => some (.ok [])
  | 0, _ :: _ => none
  | fuel + 1, t :: ts =>
    match parseEAWith (parseListGo fuel) (t :: ts) with
    | none => none
    | some (.error e) => some (.error e)
    | some (.ok (a, rest)) =>
      if a.is_final && !rest.isEmpty then some (.error ⟨"", rest⟩)
      else
        match parseListGo fuel rest with
        | none => none
        | some (.error e) => some (.error e)
        | some (.ok l) => some (.ok (a :: l))

/-- `AccessList::parse` on a token stream.  The weight of the stream is
always sufficient fuel, so `none` never actually occurs. -/
def parseAccessList (toks : List Tok) : Option (Except PErr (List ElementAccess)) :=
  parseListGo (streamWeight toks) toks

/-- `ElementAccess::parse` on a token stream, with group interiors parsed
by `parseAccessList`. -/
def parseElementAccess (toks : List Tok) :
    Option (Except PErr (ElementAccess × List Tok)) :=
  parseEAWith parseAccessList toks

/-! ### The code generator (`AccessListToTokensCtx::to_tokens`)

Each emitted `let ptr = ...;` statement becomes one `GenStmt`; the final
expression of the block (`ptr` or `ptr.into_inner()`, absent when
generation stopped at a bare trailing dot) becomes the `FinalKind`. -/

/-- The compile-error message built at the bare-trailing-dot node. -/
def danglingMsg : String := "expected an identifier, integer literal, or `*` after this `.`"

/-- The name of the `Pointer` offset method selected for an
`OffsetAccess`, exactly the four-way match in the source. -/
def offsetName : OffsetType → Bool → String
  | .add, false => "add"
  | .sub, false => "sub"
  | .add, true => "byte_add"
  | .sub, true => "byte_sub"

/-- The final expression of a generated block: `ptr` itself (dirty),
`ptr.into_inner()` (clean), or nothing because generation stopped at a
bare trailing dot. -/
inductive FinalKind where
  | ptrDirect
  | intoInner
  | stopped
deriving Repr, DecidableEq

/-- One generated statement.
* `newPointer`: `let ptr = ::crate::helper::new_pointer(ptr);` — both the
  initial wrap and the dirty re-wrap;
* `copyAddrNamed` / `copyAddrTuple`:
  `let ptr = ptr.copy_addr(addr_of!((*ptr.into_const()).f));` — address
  computation through `addr_of!`, no reference and no memory read;
* `readStmt`: `let ptr = ptr.read();` — the only memory read;
* `copyAddrDangling`: the best-effort
  `let ptr = ptr.copy_addr(addr_of!((*ptr.into_const()) .));` emitted for
  the bare trailing dot;
* `compileError`: the `compile_error!` invocation spliced after it;
* `indexStmt`: `let ptr = ::crate::helper::index(ptr, i);`;
* `offsetStmt`: `let ptr = ptr.add(n);` (or `sub` / `byte_add` /
  `byte_sub`);
* `castStmt`: `let ptr = ptr.cast::<T>();`;
* `bindBlock`: `let ptr = { ... };` around a recursively generated group
  body (its statements and its final expression). -/
inductive GenStmt where
  | newPointer
  | copyAddrNamed (s : String)
  | copyAddrTuple (n : Nat)
  | readStmt
  | copyAddrDangling
  | compileError (msg : String)
  | indexStmt (e : List Tok)
  | offsetStmt (name : String) (v : OffsetValue)
  | castStmt (ty : String)
  | bindBlock (code : List GenStmt) (fin : FinalKind)
deriving Repr

/-- A generated block: the statements and the final expression. -/
structure GenCode where
  stmts : List GenStmt
  final : FinalKind
deriving Repr

/-- Result of running the generator loop over a list of nodes: either the
statements emitted before the `return` at a bare trailing dot
(`stopped`), or all statements plus the dirty flag after the last node
(`done`). -/
inductive EmitRes where
  | stopped (stmts : List GenStmt)
  | done (stmts : List GenStmt) (dirty : Bool)
deriving Repr

/-- Prefix already-emitted statements onto a loop result. -/
def EmitRes.withPre (p : List GenStmt) : EmitRes → EmitRes
  | .stopped s => .stopped (p ++ s)
  | .done s d => .done (p ++ s) d

/-- Whether processing this node leaves the `dirty` flag set: the source
sets `dirty = true` in the `Deref` arm and in the `Group` arm, and nowhere
else. -/
def setsDirty : ElementAccess → Bool
  | .field (some .deref) => true
  | .group _ => true
  | _ => false

mutual

/-- The statements the `match access` in `to_tokens` emits for one node
(the bare-trailing-dot arm is inlined in `emitNodes` because it also stops
the loop). -/
def nodeStmts : ElementAccess → List GenStmt
  | .field none => [.copyAddrDangling, .compileError danglingMsg]
  | .field (some (.named s)) => [.copyAddrNamed s]
  | .field (some (.tuple n)) => [.copyAddrTuple n]
  | .field (some .deref) => [.readStmt]
  | .idx e => [.indexStmt e]
  | .offset byte ot v => [.offsetStmt (offsetName ot byte) v]
  | .cast ty _ => [.castStmt ty]
  | .group inner =>
    match emitNodes inner false with
    | .stopped s => [.bindBlock s .stopped]
    | .done s d => [.bindBlock s (if d then .ptrDirect else .intoInner)]
termination_by n => sizeOf n

/-- The generator loop: for each node, first re-wrap (`new_pointer`) when
the dirty flag is set, then emit the node's statements; the bare trailing
dot stops generation (`return`), a deref or a group sets the dirty flag
for the next node. -/
def emitNodes : List ElementAccess → Bool → EmitRes
  | [], d => .done [] d
  | n :: l, d =>
    let pre : List GenStmt := if d then [.newPointer] else []
    match n with
    | .field none => .stopped (pre ++ [.copyAddrDangling, .compileError danglingMsg])
    | n' => (emitNodes l (setsDirty n')).withPre (pre ++ nodeStmts n')
termination_by l _ => sizeOf l

end

/-- `AccessListToTokensCtx::to_tokens` for a whole access list: run the
loop from a clean state, then emit `ptr` if dirty, `ptr.into_inner()`
otherwise — unless generation stopped at a bare trailing dot, in which
case nothing follows the compile error. -/
def AccessListToTokens (l : List ElementAccess) : GenCode :=
  match emitNodes l false with
  | .stopped s => ⟨s, .stopped⟩
  | .done s d => ⟨s, if d then .ptrDirect else .intoInner⟩

/-! ### Shape predicates on access lists -/

mutual

/-- A node is well formed when it is not a bare trailing dot, recursively
through groups.  The parser only produces `field none` as the last node of
a (sub)chain; generation on such chains stops early. -/
def wfA : ElementAccess → Bool
  | .field none => false
  | .group inner => wfL inner
  | _ => true

/-- All nodes of the list are well formed. -/
def wfL : List ElementAccess → Bool
  | [] => true
  | n :: l => wfA n && wfL l

end

mutual

/-- No dereference access anywhere in this node, recursively through
groups. -/
def noDerefA : ElementAccess → Bool
  | .field (some .deref) => false
  | .group inner => noDerefL inner
  | _ => true

/-- No dereference access anywhere in the list. -/
def noDerefL : List ElementAccess → Bool
  | [] => true
  | n :: l => noDerefA n && noDerefL l

end

mutual

/-- The node is a dereference, or a group whose chain ends in one. -/
def endsInDerefA : ElementAccess → Bool
  | .field (some .deref) => true
  | .group inner => endsInDerefL inner
  | _ => false

/-- The list's last node is a dereference or a group ending in one. -/
def endsInDerefL : List ElementAccess → Bool
  | [] => false
  | [n] => endsInDerefA n
  | _ :: l => endsInDerefL l

end

/-! ### Symbolic semantics of the generated code

Addresses are terms of a free algebra over an arbitrary starting address:
each elementary pointer operation of the support library is a constructor.
`readAt a` is the value stored at `a`, viewed as an address when the chain
continues through it (`.*.` on an inner pointer). -/

/-- Symbolic addresses / values. -/
inductive SymAddr where
  | base
  | fieldNamed (a : SymAddr) (s : String)
  | fieldTuple (a : SymAddr) (n : Nat)
  | indexAt (a : SymAddr) (e : List Tok)
  | offsetBy (a : SymAddr) (name : String) (v : OffsetValue)
  | castTo (a : SymAddr) (ty : String)
  | readAt (a : SymAddr)
deriving Repr

/-- The three mutability markers of the support library (`Const`, `Mut`,
`NonNull`), i.e. the flavor `M` of `Pointer<M, T>` determining
`M::Raw<T>`. -/
inductive Flavor where
  | const
  | mut
  | nonNull
deriving Repr, DecidableEq

/-- What the rolling `ptr` binding holds at some point of the generated
block: a typestate wrapper `Pointer<M, T>`, a raw pointer `M::Raw<T>`
produced by `into_inner`, or a plain (non-wrapper) value produced by
`read`. -/
inductive PtrVal where
  | wrapped (a : SymAddr) (m : Flavor)
  | raw (a : SymAddr) (m : Flavor)
  | value (a : SymAddr)
deriving Repr

/-- `helper::new_pointer` applied to what the binding currently holds: a
raw pointer keeps its flavor (the `IsPtr` impls fix `M` from the concrete
pointer type); a read value that is itself a pointer gets the flavor of
its own type, given by the oracle `rho`.  Applying it to a wrapper would
not typecheck in Rust; generated code never does (the argument is junk
identity here and is unreachable in every proof). -/
def rewrapVal (rho : SymAddr → Flavor) : PtrVal → PtrVal
  | .raw a m => .wrapped a m
  | .value a => .wrapped a (rho a)
  | .wrapped a m => .wrapped a m

/-- Whether the binding holds a typestate wrapper (the generator's
`dirty = false` situation). -/
def isClean : PtrVal → Bool
  | .wrapped _ _ => true
  | _ => false

/-- Re-wrap unless the binding already holds a wrapper. -/
def cleanse (rho : SymAddr → Flavor) (st : PtrVal) : PtrVal :=
  if isClean st then st else rewrapVal rho st

/-- Evaluate the final expression of a generated block on the binding's
last value: `ptr` passes the value through, `ptr.into_inner()` converts
the wrapper into the raw pointer of its own flavor (`M::Raw<T>`), and a
stopped block (bare trailing dot) has no value — its body ends in a
compile error. -/
def evalFinal : FinalKind → PtrVal → Option PtrVal
  | .ptrDirect, st => some st
  | .intoInner, .wrapped a m => some (.raw a m)
  | .intoInner, _ => none
  | .stopped, _ => none

mutual

/-- One generated statement as a transition of the binding's value.
`none` is a Rust type error (an operation applied to a shape of value it
does not exist on); generated code never produces it. -/
def stepStmt (rho : SymAddr → Flavor) : GenStmt → PtrVal → Option PtrVal
  | .newPointer, .raw a m => some (.wrapped a m)
  | .newPointer, .value a => some (.wrapped a (rho a))
  | .newPointer, .wrapped _ _ => none
  | .copyAddrNamed s, .wrapped a m => some (.wrapped (.fieldNamed a s) m)
  | .copyAddrTuple n, .wrapped a m => some (.wrapped (.fieldTuple a n) m)
  | .readStmt, .wrapped a _ => some (.value (.readAt a))
  | .indexStmt e, .wrapped a m => some (.wrapped (.indexAt a e) m)
  | .offsetStmt name v, .wrapped a m => some (.wrapped (.offsetBy a name v) m)
  | .castStmt ty, .wrapped a m => some (.wrapped (.castTo a ty) m)
  | .bindBlock code fin, st =>
    match runStmts rho code st with
    | none => none
    | some st' => evalFinal fin st'
  | _, _ => none
termination_by s _ => sizeOf s

/-- Run a list of generated statements in order. -/
def runStmts (rho : SymAddr → Flavor) : List GenStmt → PtrVal → Option PtrVal
  | [], st => some st
  | s :: l, st =>
    match stepStmt rho s st with
    | none => none
    | some st' => runStmts rho l st'
termination_by l _ => sizeOf l

end

/-- Evaluate a whole generated block from the value the binding holds on
entry (for the macro, the freshly wrapped caller pointer). -/
def evalCode (rho : SymAddr → Flavor) (c : GenCode) (st : PtrVal) : Option PtrVal :=
  match runStmts rho c.stmts st with
  | none => none
  | some st' => evalFinal c.final st'

/-- `finalizeVal` is the total companion of the final expression the
generator chooses from its dirty flag: a wrapper is converted by
`into_inner`, anything else is already the result (`ptr`). -/
def finalizeVal : PtrVal → PtrVal
  | .wrapped a m => .raw a m
  | st => st

mutual

/-- Reference semantics of one access node on a wrapper-holding binding
(the state is cleansed by `applyChain` before every node). -/
def applyNode (rho : SymAddr → Flavor) : ElementAccess → PtrVal → PtrVal
  | .field none, st => st
  | .field (some (.named s)), st =>
    match st with
    | .wrapped a m => .wrapped (.fieldNamed a s) m
    | st => st
  | .field (some (.tuple n)), st =>
    match st with
    | .wrapped a m => .wrapped (.fieldTuple a n) m
    | st => st
  | .field (some .deref), st =>
    match st with
    | .wrapped a _ => .value (.readAt a)
    | st => st
  | .idx e, st =>
    match st with
    | .wrapped a m => .wrapped (.indexAt a e) m
    | st => st
  | .offset byte ot v, st =>
    match st with
    | .wrapped a m => .wrapped (.offsetBy a (offsetName ot byte) v) m
    | st => st
  | .cast ty _, st =>
    match st with
    | .wrapped a m => .wrapped (.castTo a ty) m
    | st => st
  | .group inner, st => finalizeVal (applyChain rho inner st)
termination_by n _ => sizeOf n

/-- Reference semantics of an access list: cleanse (re-wrap) the state,
apply the node, continue. -/
def applyChain (rho : SymAddr → Flavor) : List ElementAccess → PtrVal → PtrVal
  | [], st => st
  | n :: l, st => applyChain rho l (applyNode rho n (cleanse rho st))
termination_by l _ => sizeOf l

end

/-- Whether the binding holds a plain read-out value (not a pointer of
either shape). -/
def isValue : PtrVal → Bool
  | .value _ => true
  | _ => false

mutual

/-- Number of memory-reading statements in one generated statement: only
`ptr.read()` reads memory; all other operations (`copy_addr` over
`addr_of!`, `index`, the offset methods, `cast`, `new_pointer`,
`into_inner`) are pure address/typestate computations.  A nested group
block is counted through. -/
def countReadsStmt : GenStmt → Nat
  | .readStmt => 1
  | .bindBlock code _ => countReadsList code
  | _ => 0
termination_by s => sizeOf s

/-- Number of memory-reading statements in a generated statement list. -/
def countReadsList : List GenStmt → Nat
  | [] => 0
  | s :: l => countReadsStmt s + countReadsList l
termination_by l => sizeOf l

end

mutual

/-- Number of explicit dereference (`.*`) nodes in one access node,
counting through groups. -/
def derefCountA : ElementAccess → Nat
  | .field (some .deref) => 1
  | .group inner => derefCountL inner
  | _ => 0
termination_by n => sizeOf n

/-- Number of explicit dereference (`.*`) nodes in an access list. -/
def derefCountL : List ElementAccess → Nat
  | [] => 0
  | n :: l => derefCountA n + derefCountL l
termination_by l => sizeOf l

end

/-! ### Concrete numeric model of `helper::index` and the pointer
primitives it is built from.

`Pointer<M, T>` stores one `*const T`; here a pointer is an address
(`Nat`) with its flavor, and the pointee type is represented by its size
in bytes where the operation needs it. -/

/-- A `Pointer<M, T>` value: the stored `*const T` address plus the
mutability marker. -/
structure HPtr where
  addr : Nat
  flavor : Flavor
deriving Repr, DecidableEq

/-- `Pointer::into_const`: returns the stored `*const T` (the address). -/
def intoConstAddr (p : HPtr) : Nat := p.addr

/-- `pointer::cast::<E>` on a `*const T`: reinterpret, address unchanged. -/
def constCast (a : Nat) : Nat := a

/-- `pointer::add(count)` on a `*const E` with `size_of::<E>() = esize`:
advance by `count` elements. -/
def constAdd (esize a count : Nat) : Nat := a + count * esize

/-- Pointee types as far as the `CanIndex` capability is concerned:
fixed-length arrays `[T; L]`, slices `[T]`, and everything else (a scalar
of some byte size). -/
inductive Pointee where
  | scalar (size : Nat)
  | array (elem : Pointee) (len : Nat)
  | slice (elem : Pointee)
deriving Repr, DecidableEq

/-- Byte size of a sized pointee. -/
def Pointee.byteSize : Pointee → Nat
  | .scalar s => s
  | .array e l => l * e.byteSize
  | .slice _ => 0

/-- The `CanIndex` capability: exactly the two `unsafe impl`s of the
support library — `[T; L]` and `[T]` — declare an element type `E`; no
other pointee has one. -/
def canIndexElem : Pointee → Option Pointee
  | .array e _ => some e
  | .slice e => some e
  | _ => none

/-- `helper::index`: translated line by line —
`let base = ptr.into_const().cast::<T::E>(); let ptr = base.add(index);
Pointer(ptr, PhantomData)`.  `esize` is `size_of::<T::E>()`; the flavor
`M` is carried over to the result `Pointer<M, T::E>`. -/
def helperIndex (esize : Nat) (p : HPtr) (i : Nat) : HPtr :=
  ⟨constAdd esize (constCast (intoConstAddr p)) i, p.flavor⟩

/-- Modelled from the spec: "the index operation computes the element
address as the base address reinterpreted as a pointer to the element
type and then advanced by i elements" — reinterpretation keeps the
address, advancing by `i` elements adds `i * esize` bytes. -/
def specIndexAddr (esize : Nat) (p : HPtr) (i : Nat) : Nat :=
  p.addr + i * esize

/-! ### Parser lemmas: the fuel is irrelevant once it is sufficient -/

/-- `parseEAWith` only consults its group-interior parser on the interior
of a leading paren; two parsers agreeing there (on defined results) give
the same defined result. -/
theorem parseEAWith_congr (pl pl' : List Tok → Option (Except PErr (List ElementAccess)))
    (toks : List Tok)
    (h : ∀ inner ts, toks = .paren inner :: ts →
      ∀ r, pl inner = some r → pl' inner = some r) :
    ∀ res, parseEAWith pl toks = some res → parseEAWith pl' toks = some res := by
  intro res hp
  cases toks with
  | nil => simpa [parseEAWith] using hp
  | cons t ts =>
    cases t with
    | dot => simpa [parseEAWith] using hp
    | star => simpa [parseEAWith] using hp
    | plus => simpa [parseEAWith] using hp
    | minus => simpa [parseEAWith] using hp
    | fatArrow => simpa [parseEAWith] using hp
    | kwU8 => simpa [parseEAWith] using hp
    | kwAs => simpa [parseEAWith] using hp
    | ident s => simpa [parseEAWith] using hp
    | int n => simpa [parseEAWith] using hp
    | bracket inner => simpa [parseEAWith] using hp
    | paren inner =>
      simp only [parseEAWith] at hp ⊢
      cases hpl : pl inner with
      | none => rw [hpl] at hp; simp at hp
      | some r =>
        rw [hpl] at hp
        rw [h inner ts rfl r hpl]
        exact hp

/-- Defined results of the fueled `AccessList::parse` loop are stable
under increasing the fuel. -/
theorem parseListGo_mono : ∀ f f', f ≤ f' → ∀ toks res,
    parseListGo f toks = some res → parseListGo f' toks = some res := by
  intro f
  induction f with
  | zero =>
    intro f' _ toks res h
    cases toks with
    | nil =>
      simp only [parseListGo] at h
      cases f' <;> simpa [parseListGo] using h
    | cons t ts => simp [parseListGo] at h
  | succ f ih =>
    intro f' hle toks res h
    cases toks with
    | nil =>
      simp only [parseListGo] at h
      cases f' <;> simpa [parseListGo] using h
    | cons t ts =>
      obtain ⟨f'', rfl⟩ : ∃ f'', f' = f'' + 1 := ⟨f' - 1, by omega⟩
      have hf : f ≤ f'' := by omega
      simp only [parseListGo] at h ⊢
      cases hea : parseEAWith (parseListGo f) (t :: ts) with
      | none => rw [hea] at h; simp at h
      | some r =>
        have hea' : parseEAWith (parseListGo f'') (t :: ts) = some r :=
          parseEAWith_congr _ _ _ (fun inner ts2 _ r2 hr2 => ih f'' hf inner r2 hr2) r hea
        rw [hea] at h
        rw [hea']
        cases r with
        | error e => exact h
        | ok ar =>
          obtain ⟨a, rest⟩ := ar
          by_cases hfin : (a.is_final && !rest.isEmpty) = true
          · simp only [hfin, if_true] at h ⊢
            exact h
          · simp only [hfin, if_false, Bool.false_eq_true] at h ⊢
            cases hrec : parseListGo f rest with
            | none => rw [hrec] at h; simp at h
            | some r2 =>
              rw [hrec] at h
              rw [ih f'' hf rest r2 hrec]
              exact h

/-- The canonical fuel of `parseAccessList` dominates the fuel used for
the interior of a leading paren group. -/
theorem streamWeight_paren_head (inner ts : List Tok) :
    streamWeight inner + 1 ≤ streamWeight (.paren inner :: ts) := by
  simp only [streamWeight, Tok.weight]
  omega

/-! ### Emitter lemmas and the correspondence with the reference
semantics `applyChain` -/

/-- A clean state is a wrapper. -/
theorem isClean_iff (st : PtrVal) : isClean st = true ↔ ∃ a m, st = .wrapped a m := by
  cases st <;> simp [isClean]

/-- `finalizeVal` never returns a wrapper. -/
theorem finalizeVal_not_clean (st : PtrVal) : isClean (finalizeVal st) = false := by
  cases st <;> simp [finalizeVal, isClean]

/-- `finalizeVal` is idempotent. -/
theorem finalizeVal_idem (st : PtrVal) : finalizeVal (finalizeVal st) = finalizeVal st := by
  cases st <;> simp [finalizeVal]

/-- Re-wrapping after `into_inner` restores the same wrapper, so cleansing
ignores an intervening finalize. -/
theorem cleanse_finalize (rho : SymAddr → Flavor) (st : PtrVal) :
    cleanse rho (finalizeVal st) = cleanse rho st := by
  cases st <;> simp [finalizeVal, cleanse, isClean, rewrapVal]

/-- `finalizeVal` keeps non-values non-values. -/
theorem finalizeVal_isValue (st : PtrVal) : isValue (finalizeVal st) = isValue st := by
  cases st <;> simp [finalizeVal, isValue]

/-- Running concatenated statement lists is sequential composition. -/
theorem runStmts_append (rho : SymAddr → Flavor) (s1 s2 : List GenStmt) (st : PtrVal) :
    runStmts rho (s1 ++ s2) st =
      match runStmts rho s1 st with
      | none => none
      | some st2 => runStmts rho s2 st2 := by
  induction s1 generalizing st with
  | nil => simp [runStmts]
  | cons s l ih =>
    simp only [List.cons_append, runStmts]
    cases h : stepStmt rho s st with
    | none => simp
    | some st2 => simp [ih]

/-- Unfolding of the generator loop at a well-formed head node: re-wrap
when dirty, emit the node's statements, continue with the node's dirty
flag. -/
theorem emitNodes_cons (n : ElementAccess) (l : List ElementAccess) (d : Bool)
    (hn : n ≠ .field none) :
    emitNodes (n :: l) d =
      (emitNodes l (setsDirty n)).withPre
        ((if d then [GenStmt.newPointer] else []) ++ nodeStmts n) := by
  cases n with
  | field f =>
    cases f with
    | none => exact absurd rfl hn
    | some ft => simp [emitNodes]
  | idx e => simp [emitNodes]
  | offset b ot v => simp [emitNodes]
  | cast ty ar => simp [emitNodes]
  | group g => simp [emitNodes]

/-- On a well-formed list the generator loop never stops early. -/
theorem emitNodes_wf_done : ∀ L : List ElementAccess, wfL L = true →
    ∀ d, ∃ s d2, emitNodes L d = .done s d2 := by
  intro L
  induction L with
  | nil => exact fun _ d => ⟨[], d, by simp [emitNodes]⟩
  | cons n l ih =>
    intro hwf d
    have hn : wfA n = true ∧ wfL l = true := by
      simpa [wfL, Bool.and_eq_true] using hwf
    have hne : n ≠ .field none := by
      intro he
      rw [he] at hn
      simp [wfA] at hn
    obtain ⟨s, d2, hs⟩ := ih hn.2 (setsDirty n)
    exact ⟨_, d2, by rw [emitNodes_cons n l d hne, hs]; rfl⟩

/-- Running the re-wrap prefix the generator emits for an incoming dirty
flag cleanses the state. -/
theorem runStmts_pre (rho : SymAddr → Flavor) (d : Bool) (st : PtrVal)
    (h : isClean st = !d) :
    runStmts rho (if d then [GenStmt.newPointer] else []) st = some (cleanse rho st) := by
  cases d with
  | false =>
    have : isClean st = true := by simpa using h
    simp [runStmts, cleanse, this]
  | true =>
    have hc : isClean st = false := by simpa using h
    cases st with
    | wrapped a m => simp [isClean] at hc
    | raw a m => simp [runStmts, stepStmt, cleanse, isClean, rewrapVal]
    | value a => simp [runStmts, stepStmt, cleanse, isClean, rewrapVal]

/-- The final expression chosen from the dirty flag computes
`finalizeVal` on a state matching that flag. -/
theorem evalFinal_finalize (d : Bool) (st : PtrVal) (h : isClean st = !d) :
    evalFinal (if d then .ptrDirect else .intoInner) st = some (finalizeVal st) := by
  cases d <;> cases st <;> simp_all [evalFinal, finalizeVal, isClean]

mutual

/-- Running the statements emitted for one well-formed node from a
wrapper state computes `applyNode`, and the cleanliness of the result is
the negation of the node's dirty contribution. -/
theorem runStmts_node (n : ElementAccess) (hn : wfA n = true)
    (rho : SymAddr → Flavor) (a : SymAddr) (m : Flavor) :
    runStmts rho (nodeStmts n) (.wrapped a m) = some (applyNode rho n (.wrapped a m)) ∧
    isClean (applyNode rho n (.wrapped a m)) = !(setsDirty n) := by
  cases n with
  | field f =>
    cases f with
    | none => simp [wfA] at hn
    | some ft =>
      cases ft with
      | named s =>
        exact ⟨by simp [nodeStmts, runStmts, stepStmt, applyNode],
          by simp [applyNode, isClean, setsDirty]⟩
      | tuple k =>
        exact ⟨by simp [nodeStmts, runStmts, stepStmt, applyNode],
          by simp [applyNode, isClean, setsDirty]⟩
      | deref =>
        exact ⟨by simp [nodeStmts, runStmts, stepStmt, applyNode],
          by simp [applyNode, isClean, setsDirty]⟩
  | idx e =>
    exact ⟨by simp [nodeStmts, runStmts, stepStmt, applyNode],
      by simp [applyNode, isClean, setsDirty]⟩
  | offset b ot v =>
    exact ⟨by simp [nodeStmts, runStmts, stepStmt, applyNode],
      by simp [applyNode, isClean, setsDirty]⟩
  | cast ty ar =>
    exact ⟨by simp [nodeStmts, runStmts, stepStmt, applyNode],
      by simp [applyNode, isClean, setsDirty]⟩
  | group inner =>
    have hwi : wfL inner = true := by simpa [wfA] using hn
    obtain ⟨sG, dG, hG⟩ := emitNodes_wf_done inner hwi false
    have hrec := run_emitNodes inner hwi false sG dG hG rho (.wrapped a m) (by simp [isClean])
    have hstep : stepStmt rho (.bindBlock sG (if dG then .ptrDirect else .intoInner))
        (.wrapped a m) = some (finalizeVal (applyChain rho inner (.wrapped a m))) := by
      simp only [stepStmt]
      rw [hrec.1]
      exact evalFinal_finalize dG _ hrec.2
    have hnode : nodeStmts (.group inner) =
        [.bindBlock sG (if dG then .ptrDirect else .intoInner)] := by
      simp [nodeStmts, hG]
    constructor
    · rw [hnode]
      simp only [runStmts, hstep]
      simp [applyNode]
    · simp [applyNode, setsDirty, finalizeVal_not_clean]
termination_by sizeOf n

/-- Correspondence: running the statements the generator emits for a
well-formed list, from a state whose shape matches the incoming dirty
flag, computes the reference semantics `applyChain`, and the outgoing
dirty flag matches the final state's shape. -/
theorem run_emitNodes (L : List ElementAccess) (hwf : wfL L = true) :
    ∀ d s d2, emitNodes L d = .done s d2 →
    ∀ rho st, isClean st = !d →
      runStmts rho s st = some (applyChain rho L st) ∧
      isClean (applyChain rho L st) = !d2 := by
  intro d s d2 hemit rho st hst
  match L, hwf with
  | [], _ =>
    have hs : s = [] ∧ d = d2 := by
      simpa [emitNodes, EmitRes.done.injEq, eq_comm] using hemit
    obtain ⟨rfl, rfl⟩ : s = [] ∧ d = d2 := hs
    exact ⟨by simp [runStmts, applyChain], by simpa [applyChain] using hst⟩
  | n :: l, hwf =>
    have hnl : wfA n = true ∧ wfL l = true := by
      simpa [wfL, Bool.and_eq_true] using hwf
    have hne : n ≠ .field none := by
      intro he
      rw [he] at hnl
      simp [wfA] at hnl
    rw [emitNodes_cons n l d hne] at hemit
    obtain ⟨sl, hl, hsl⟩ : ∃ sl, emitNodes l (setsDirty n) = .done sl d2 ∧
        s = ((if d then [GenStmt.newPointer] else []) ++ nodeStmts n) ++ sl := by
      cases hE : emitNodes l (setsDirty n) with
      | stopped s3 => rw [hE] at hemit; simp [EmitRes.withPre] at hemit
      | done s3 d3 =>
        rw [hE] at hemit
        simp only [EmitRes.withPre, EmitRes.done.injEq] at hemit
        exact ⟨s3, by rw [hemit.2], hemit.1.symm⟩
    have hcl : isClean (cleanse rho st) = true := by
      cases st <;> simp [cleanse, isClean, rewrapVal]
    obtain ⟨a, m, ham⟩ := (isClean_iff _).1 hcl
    have hnode := runStmts_node n hnl.1 rho a m
    have hrest := run_emitNodes l hnl.2 (setsDirty n) sl d2 hl rho
      (applyNode rho n (.wrapped a m)) hnode.2
    constructor
    · rw [hsl, List.append_assoc, runStmts_append, runStmts_pre rho d st hst]
      show runStmts rho (nodeStmts n ++ sl) (cleanse rho st) = _
      rw [ham, runStmts_append, hnode.1]
      show runStmts rho sl (applyNode rho n (.wrapped a m)) = _
      rw [hrest.1]
      simp only [applyChain, ham]
    · show isClean (applyChain rho (n :: l) st) = !d2
      simp only [applyChain, ham]
      exact hrest.2
termination_by sizeOf L

end

/-- All lists in a concatenation are well formed iff both halves are. -/
theorem wfL_append (l1 l2 : List ElementAccess) :
    wfL (l1 ++ l2) = (wfL l1 && wfL l2) := by
  induction l1 with
  | nil => simp [wfL]
  | cons n l ih => simp [wfL, ih, Bool.and_assoc]

/-- Evaluating the whole generated block of a well-formed list from a
wrapper computes `finalizeVal` of the reference semantics. -/
theorem eval_emit (L : List ElementAccess) (hwf : wfL L = true)
    (rho : SymAddr → Flavor) (st : PtrVal) (hc : isClean st = true) :
    evalCode rho (AccessListToTokens L) st =
      some (finalizeVal (applyChain rho L st)) := by
  obtain ⟨s, d2, he⟩ := emitNodes_wf_done L hwf false
  have hrun := run_emitNodes L hwf false s d2 he rho st (by simpa using hc)
  have hcode : AccessListToTokens L = ⟨s, if d2 then .ptrDirect else .intoInner⟩ := by
    simp [AccessListToTokens, he]
  rw [hcode]
  simp only [evalCode, hrun.1]
  exact evalFinal_finalize d2 _ hrun.2

/-- Cleansing always produces a wrapper. -/
theorem cleanse_isClean (rho : SymAddr → Flavor) (st : PtrVal) :
    isClean (cleanse rho st) = true := by
  cases st <;> simp [cleanse, isClean, rewrapVal]

/-- One step of the reference semantics. -/
theorem applyChain_cons (rho : SymAddr → Flavor) (n : ElementAccess)
    (l : List ElementAccess) (st : PtrVal) :
    applyChain rho (n :: l) st =
      applyChain rho l (applyNode rho n (cleanse rho st)) := by
  simp [applyChain]

/-- `applyChain` over a concatenation is sequential composition. -/
theorem applyChain_append (rho : SymAddr → Flavor) (l1 l2 : List ElementAccess)
    (st : PtrVal) :
    applyChain rho (l1 ++ l2) st = applyChain rho l2 (applyChain rho l1 st) := by
  induction l1 generalizing st with
  | nil => simp [applyChain]
  | cons n l ih => simp [applyChain, ih]

/-- An intervening `into_inner` (the group block's clean exit) is undone
by the cleansing re-wrap of whatever follows, and by the outer finalize
when nothing follows. -/
theorem finalize_applyChain_finalize (rho : SymAddr → Flavor)
    (C : List ElementAccess) (x : PtrVal) :
    finalizeVal (applyChain rho C (finalizeVal x)) =
      finalizeVal (applyChain rho C x) := by
  cases C with
  | nil => simp [applyChain, finalizeVal_idem]
  | cons c l => simp [applyChain, cleanse_finalize]

mutual

/-- A node containing no dereference maps a wrapper of flavor `m` to a
wrapper or raw pointer of the same flavor `m`. -/
theorem applyNode_flavor (n : ElementAccess) (hnd : noDerefA n = true)
    (rho : SymAddr → Flavor) (m : Flavor) (a : SymAddr) :
    (∃ a2, applyNode rho n (.wrapped a m) = .wrapped a2 m) ∨
    (∃ a2, applyNode rho n (.wrapped a m) = .raw a2 m) := by
  cases n with
  | field f =>
    cases f with
    | none => exact .inl ⟨a, by simp [applyNode]⟩
    | some ft =>
      cases ft with
      | named s => exact .inl ⟨.fieldNamed a s, by simp [applyNode]⟩
      | tuple k => exact .inl ⟨.fieldTuple a k, by simp [applyNode]⟩
      | deref => simp [noDerefA] at hnd
  | idx e => exact .inl ⟨.indexAt a e, by simp [applyNode]⟩
  | offset b ot v => exact .inl ⟨.offsetBy a (offsetName ot b) v, by simp [applyNode]⟩
  | cast ty ar => exact .inl ⟨.castTo a ty, by simp [applyNode]⟩
  | group inner =>
    have hni : noDerefL inner = true := by simpa [noDerefA] using hnd
    have hrec := applyChain_flavor inner hni rho m (.wrapped a m) (.inl ⟨a, rfl⟩)
    cases hrec with
    | inl h =>
      obtain ⟨a2, h⟩ := h
      exact .inr ⟨a2, by simp [applyNode, h, finalizeVal]⟩
    | inr h =>
      obtain ⟨a2, h⟩ := h
      exact .inr ⟨a2, by simp [applyNode, h, finalizeVal]⟩
termination_by sizeOf n

/-- A chain containing no dereference maps a wrapper or raw pointer of
flavor `m` to a wrapper or raw pointer of the same flavor `m`: no access
kind changes the mutability marker. -/
theorem applyChain_flavor (L : List ElementAccess) (hnd : noDerefL L = true)
    (rho : SymAddr → Flavor) (m : Flavor) :
    ∀ st, ((∃ a, st = .wrapped a m) ∨ (∃ a, st = .raw a m)) →
      (∃ a, applyChain rho L st = .wrapped a m) ∨
      (∃ a, applyChain rho L st = .raw a m) := by
  intro st hst
  match L, hnd with
  | [], _ => simpa [applyChain] using hst
  | n :: l, hnd =>
    have hn : noDerefA n = true ∧ noDerefL l = true := by
      simpa [noDerefL, Bool.and_eq_true] using hnd
    obtain ⟨a, ham⟩ : ∃ a, cleanse rho st = .wrapped a m := by
      cases hst with
      | inl h =>
        obtain ⟨a, rfl⟩ := h
        exact ⟨a, by simp [cleanse, isClean]⟩
      | inr h =>
        obtain ⟨a, rfl⟩ := h
        exact ⟨a, by simp [cleanse, isClean, rewrapVal]⟩
    have hnode := applyNode_flavor n hn.1 rho m a
    have hrest := applyChain_flavor l hn.2 rho m (applyNode rho n (.wrapped a m)) hnode
    simp only [applyChain, ham]
    exact hrest
termination_by sizeOf L

end

/-- Claim C5: grouping is a no-op for the computed result — for any base
pointer, `base => (A B) C` generates code computing the identical final
value as `base => A B C` (stated for well-formed chains; the
`endsInDerefL` hypothesis mirrors the claim's side condition, although
the equality holds without using it). -/
theorem grouping_noop (AB C : List ElementAccess) (hAB : wfL AB = true)
    (hC : wfL C = true) (_hnd : endsInDerefL AB = false)
    (rho : SymAddr → Flavor) (a : SymAddr) (m : Flavor) :
    evalCode rho (AccessListToTokens (.group AB :: C)) (.wrapped a m) =
      evalCode rho (AccessListToTokens (AB ++ C)) (.wrapped a m) := by
  have hwf1 : wfL (.group AB :: C) = true := by simp [wfL, wfA, hAB, hC]
  have hwf2 : wfL (AB ++ C) = true := by simp [wfL_append, hAB, hC]
  rw [eval_emit _ hwf1 rho _ (by simp [isClean]),
    eval_emit _ hwf2 rho _ (by simp [isClean])]
  have hcl : cleanse rho (.wrapped a m) = .wrapped a m := by
    simp [cleanse, isClean]
  congr 1
  simp only [applyChain_append, applyChain, hcl, applyNode]
  exact finalize_applyChain_finalize rho C _

/-- Witness for C5: `( as T ) .x` against `as T => .x` over a mutable
base pointer compute the same generated-code result. -/
theorem grouping_noop_witness :
    wfL [ElementAccess.cast "T" false] = true ∧
    wfL [ElementAccess.field (some (.named "x"))] = true ∧
    endsInDerefL [ElementAccess.cast "T" false] = false ∧
    evalCode (fun _ => Flavor.const)
        (AccessListToTokens
          [.group [.cast "T" false], .field (some (.named "x"))])
        (.wrapped .base .mut) =
      evalCode (fun _ => Flavor.const)
        (AccessListToTokens
          ([ElementAccess.cast "T" false] ++ [.field (some (.named "x"))]))
        (.wrapped .base .mut) := by
  refine ⟨by simp [wfL, wfA], by simp [wfL, wfA], by simp [endsInDerefL, endsInDerefA], ?_⟩
  exact grouping_noop _ _ (by simp [wfL, wfA]) (by simp [wfL, wfA])
    (by simp [endsInDerefL, endsInDerefA]) _ _ _

/-- Claim C6: a chain containing no dereference preserves the mutability
marker end to end: from a wrapper of flavor `m` the generated code
produces `some (.raw a2 m)` — the concrete raw pointer of the same
read-only / mutable / non-null flavor as the initial pointer. -/
theorem mutability_invariant (L : List ElementAccess) (hwf : wfL L = true)
    (hnd : noDerefL L = true) (rho : SymAddr → Flavor) (a : SymAddr) (m : Flavor) :
    ∃ a2, evalCode rho (AccessListToTokens L) (.wrapped a m) = some (.raw a2 m) := by
  rw [eval_emit L hwf rho _ (by simp [isClean])]
  have hfl := applyChain_flavor L hnd rho m (.wrapped a m) (.inl ⟨a, rfl⟩)
  cases hfl with
  | inl h =>
    obtain ⟨a2, h⟩ := h
    exact ⟨a2, by rw [h]; rfl⟩
  | inr h =>
    obtain ⟨a2, h⟩ := h
    exact ⟨a2, by rw [h]; rfl⟩

/-- Witness for C6: `.c.items[3]` over a guaranteed-non-null pointer
yields a guaranteed-non-null result. -/
theorem mutability_invariant_witness :
    wfL [ElementAccess.field (some (.named "c")),
      .field (some (.named "items")), .idx [.int 3]] = true ∧
    noDerefL [ElementAccess.field (some (.named "c")),
      .field (some (.named "items")), .idx [.int 3]] = true ∧
    ∃ a2, evalCode (fun _ => Flavor.const)
        (AccessListToTokens [ElementAccess.field (some (.named "c")),
          .field (some (.named "items")), .idx [.int 3]])
        (.wrapped .base .nonNull) = some (.raw a2 .nonNull) := by
  refine ⟨by simp [wfL, wfA], by simp [noDerefL, noDerefA], ?_⟩
  exact mutability_invariant _ (by simp [wfL, wfA]) (by simp [noDerefL, noDerefA]) _ _ _

/-- Claim C4: exactly one node kind reports itself terminal — a cast not
followed by a `=>` continuation marker (`is_final` is true exactly on
`CastAccess` with `arrow: None`) — and when an access node parsed from a
chain's stream is terminal while tokens remain, `AccessList::parse` fails
with `input.error("")`: a hard error whose diagnostic message is the
empty string, positioned at the remaining (trailing) tokens. -/
theorem cast_terminality_trailing_error :
    (∀ a : ElementAccess, a.is_final = true ↔ ∃ ty, a = .cast ty false) ∧
    (∀ toks a rest, parseElementAccess toks = some (.ok (a, rest)) →
      a.is_final = true → rest ≠ [] →
      parseAccessList toks = some (.error ⟨"", rest⟩)) := by
  constructor
  · intro a
    cases a with
    | cast ty arrow => cases arrow <;> simp [ElementAccess.is_final]
    | field f => simp [ElementAccess.is_final]
    | idx e => simp [ElementAccess.is_final]
    | offset b ot v => simp [ElementAccess.is_final]
    | group g => simp [ElementAccess.is_final]
  · intro toks a rest hp hfin hrest
    cases toks with
    | nil => simp [parseElementAccess, parseEAWith] at hp
    | cons t ts =>
      have hw : streamWeight (t :: ts) = (Tok.weight t + streamWeight ts) + 1 := by
        simp [streamWeight]
        omega
      have hea : parseEAWith (parseListGo (Tok.weight t + streamWeight ts)) (t :: ts)
          = some (.ok (a, rest)) := by
        refine parseEAWith_congr parseAccessList _ _ ?_ _ hp
        intro inner ts2 heq r hr
        obtain ⟨ht, hts⟩ : t = .paren inner ∧ ts = ts2 := by
          constructor <;> injection heq
        refine parseListGo_mono (streamWeight inner) _ ?_ _ _ hr
        subst ht
        simp only [Tok.weight]
        omega
      show parseListGo (streamWeight (t :: ts)) (t :: ts) = _
      rw [hw]
      simp only [parseListGo]
      rw [hea]
      have hff : (a.is_final && !rest.isEmpty) = true := by
        rw [hfin]
        cases rest with
        | nil => exact absurd rfl hrest
        | cons x xs => simp
      simp [hff]

/-- Witness for C4: the cast `as T` with no arrow is terminal, and the
stream `as T . f` leaves `.` `f` trailing, so parsing fails with the
empty-message error at those tokens. -/
theorem cast_terminality_trailing_error_witness :
    parseElementAccess [.kwAs, .ident "T", .dot, .ident "f"] =
      some (.ok (.cast "T" false, [.dot, .ident "f"])) ∧
    (ElementAccess.cast "T" false).is_final = true ∧
    ([Tok.dot, .ident "f"] ≠ ([] : List Tok)) ∧
    parseAccessList [.kwAs, .ident "T", .dot, .ident "f"] =
      some (.error ⟨"", [.dot, .ident "f"]⟩) :=
  ⟨rfl, rfl, by simp, cast_terminality_trailing_error.2 _ _ _ rfl rfl (by simp)⟩

/-- Claim C10: cast terminality is scoped to the stream of the chain being
parsed.  A group's interior is parsed as its own `AccessList` from its own
parenthesized stream, so an inner chain may end in an arrow-less cast; the
resulting `GroupAccess` is not itself terminal, and the outer chain may
continue with further nodes. -/
theorem group_scoped_cast_terminality :
    ∀ inner rest il rl,
      parseAccessList inner = some (.ok il) →
      parseAccessList rest = some (.ok rl) →
      (ElementAccess.group il).is_final = false ∧
      parseAccessList (.paren inner :: rest) = some (.ok (.group il :: rl)) := by
  intro inner rest il rl hi hr
  refine ⟨rfl, ?_⟩
  have hi' : parseListGo (streamWeight inner) inner = some (.ok il) := hi
  have hr' : parseListGo (streamWeight rest) rest = some (.ok rl) := hr
  have hw : streamWeight (Tok.paren inner :: rest)
      = ((1 + streamWeight inner) + streamWeight rest) + 1 := by
    simp only [streamWeight, Tok.weight]
    omega
  show parseListGo (streamWeight (Tok.paren inner :: rest)) _ = _
  rw [hw]
  simp only [parseListGo]
  have hinner : parseListGo ((1 + streamWeight inner) + streamWeight rest) inner
      = some (.ok il) := parseListGo_mono _ _ (by omega) _ _ hi'
  have hrest : parseListGo ((1 + streamWeight inner) + streamWeight rest) rest
      = some (.ok rl) := parseListGo_mono _ _ (by omega) _ _ hr'
  simp only [parseEAWith]
  rw [hinner]
  simp [ElementAccess.is_final, hrest]

/-- Witness for C10: `( as T ) . f` — the group's inner chain is the
terminal cast `as T`, and the outer chain continues with `.f`; the whole
stream parses. -/
theorem group_scoped_cast_terminality_witness :
    parseAccessList [.kwAs, .ident "T"] = some (.ok [.cast "T" false]) ∧
    parseAccessList [.dot, .ident "f"] = some (.ok [.field (some (.named "f"))]) ∧
    (ElementAccess.group [.cast "T" false]).is_final = false ∧
    parseAccessList [.paren [.kwAs, .ident "T"], .dot, .ident "f"] =
      some (.ok [.group [.cast "T" false], .field (some (.named "f"))]) := by
  refine ⟨rfl, rfl, ?_⟩
  exact group_scoped_cast_terminality _ _ _ _ rfl rfl

/-- Claim C8: when the stream is exhausted right after a `.`, the parser
still emits the node (`field: None`); the generator emits the best-effort
address-of statement for the dangling dot, appends the pre-built compile
error, and stops: nothing else is emitted, in particular no final result
conversion (`FinalKind.stopped`). -/
theorem bare_trailing_dot_partial_emit :
    (∀ pl, parseEAWith pl [.dot] = some (.ok (.field none, []))) ∧
    parseAccessList [.dot] = some (.ok [.field none]) ∧
    (∀ l d, emitNodes (.field none :: l) d =
      .stopped ((if d then [.newPointer] else []) ++
        [.copyAddrDangling, .compileError danglingMsg])) ∧
    (∀ l, AccessListToTokens (.field none :: l) =
      ⟨[.copyAddrDangling, .compileError danglingMsg], .stopped⟩) := by
  refine ⟨fun pl => rfl, rfl, fun l d => ?_, fun l => ?_⟩
  · simp [emitNodes]
  · simp [AccessListToTokens, emitNodes]

/-- Claim C9 (parsing half plus lowering): the empty access chain parses,
and its generated code converts the freshly wrapped caller pointer
straight back with `into_inner`, returning the same address with the same
flavor. -/
theorem empty_chain_identity :
    parseAccessList [] = some (.ok []) ∧
    ∀ rho a m, evalCode rho (AccessListToTokens []) (.wrapped a m) = some (.raw a m) := by
  refine ⟨rfl, fun rho a m => ?_⟩
  simp [AccessListToTokens, emitNodes, evalCode, runStmts, evalFinal]

/-! ### Read counting: memory reads in the generated code -/

/-- Read counting distributes over statement concatenation. -/
theorem countReadsList_append (s1 s2 : List GenStmt) :
    countReadsList (s1 ++ s2) = countReadsList s1 + countReadsList s2 := by
  induction s1 with
  | nil => simp [countReadsList]
  | cons s l ih =>
    simp only [List.cons_append, countReadsList, ih]
    omega

/-- The re-wrap prefix reads nothing. -/
theorem countReads_pre (d : Bool) :
    countReadsList (if d then [GenStmt.newPointer] else []) = 0 := by
  cases d <;> simp [countReadsList, countReadsStmt]

mutual

/-- The statements emitted for one well-formed node contain exactly as
many memory reads as the node has dereference accesses. -/
theorem countReads_nodeStmts (n : ElementAccess) (hn : wfA n = true) :
    countReadsList (nodeStmts n) = derefCountA n := by
  cases n with
  | field f =>
    cases f with
    | none => simp [wfA] at hn
    | some ft =>
      cases ft <;> simp [nodeStmts, countReadsList, countReadsStmt, derefCountA]
  | idx e => simp [nodeStmts, countReadsList, countReadsStmt, derefCountA]
  | offset b ot v => simp [nodeStmts, countReadsList, countReadsStmt, derefCountA]
  | cast ty ar => simp [nodeStmts, countReadsList, countReadsStmt, derefCountA]
  | group inner =>
    have hwi : wfL inner = true := by simpa [wfA] using hn
    obtain ⟨sG, dG, hG⟩ := emitNodes_wf_done inner hwi false
    have hrec := countReads_emitNodes inner hwi false sG dG hG
    simp [nodeStmts, hG, countReadsList, countReadsStmt, derefCountA, hrec]
termination_by sizeOf n

/-- The statements the generator emits for a well-formed list contain
exactly as many memory reads as the list has dereference accesses. -/
theorem countReads_emitNodes (L : List ElementAccess) (hwf : wfL L = true) :
    ∀ d s d2, emitNodes L d = .done s d2 → countReadsList s = derefCountL L := by
  intro d s d2 hemit
  match L, hwf with
  | [], _ =>
    have hs : s = [] ∧ d = d2 := by
      simpa [emitNodes, EmitRes.done.injEq, eq_comm] using hemit
    simp [hs.1, countReadsList, derefCountL]
  | n :: l, hwf =>
    have hnl : wfA n = true ∧ wfL l = true := by
      simpa [wfL, Bool.and_eq_true] using hwf
    have hne : n ≠ .field none := by
      intro he
      rw [he] at hnl
      simp [wfA] at hnl
    rw [emitNodes_cons n l d hne] at hemit
    obtain ⟨sl, hl, hsl⟩ : ∃ sl, emitNodes l (setsDirty n) = .done sl d2 ∧
        s = ((if d then [GenStmt.newPointer] else []) ++ nodeStmts n) ++ sl := by
      cases hE : emitNodes l (setsDirty n) with
      | stopped s3 => rw [hE] at hemit; simp [EmitRes.withPre] at hemit
      | done s3 d3 =>
        rw [hE] at hemit
        simp only [EmitRes.withPre, EmitRes.done.injEq] at hemit
        exact ⟨s3, by rw [hemit.2], hemit.1.symm⟩
    have hrest := countReads_emitNodes l hnl.2 (setsDirty n) sl d2 hl
    rw [hsl, countReadsList_append, countReadsList_append, countReads_pre,
      countReads_nodeStmts n hnl.1, hrest]
    simp only [derefCountL]
    omega
termination_by sizeOf L

end

/-- Claim C1: every statement the macro emits is one of the enumerated
address-level operations (`new_pointer`, `copy_addr` over `addr_of!`,
`helper::index`, the offset methods, `cast`, `into_inner` — none of which
forms a language-level reference or touches memory), except `ptr.read()`;
and the generated code of a well-formed chain contains exactly one
`read()` per explicit dereference (`.*`) node, counted through nested
group blocks: memory is read only where the programmer wrote `.*`. -/
theorem memory_reads_only_at_deref (L : List ElementAccess) (hwf : wfL L = true) :
    countReadsList (AccessListToTokens L).stmts = derefCountL L := by
  obtain ⟨s, d2, he⟩ := emitNodes_wf_done L hwf false
  have hcount := countReads_emitNodes L hwf false s d2 he
  simp [AccessListToTokens, he, hcount]

/-- Witness for C1: `.p.*( [0] )` — one dereference, one read in the
generated code, none contributed by the field access, the group, or the
index. -/
theorem memory_reads_only_at_deref_witness :
    wfL [ElementAccess.field (some (.named "p")), .field (some .deref),
      .group [.idx [.int 0]]] = true ∧
    derefCountL [ElementAccess.field (some (.named "p")), .field (some .deref),
      .group [.idx [.int 0]]] = 1 ∧
    countReadsList (AccessListToTokens [ElementAccess.field (some (.named "p")),
      .field (some .deref), .group [.idx [.int 0]]]).stmts =
      derefCountL [ElementAccess.field (some (.named "p")), .field (some .deref),
        .group [.idx [.int 0]]] := by
  refine ⟨by simp [wfL, wfA], ?_, ?_⟩
  · simp [derefCountL, derefCountA]
  · exact memory_reads_only_at_deref _ (by simp [wfL, wfA])

/-! ### Dirty intermediates: which states are actual non-pointer values -/

mutual

/-- A node that is not a dereference and not a group ending in one maps a
wrapper to a non-value (a wrapper or a raw pointer — still address-like),
even though a group always sets the generator's dirty flag. -/
theorem applyNode_not_value (n : ElementAccess) (hn : endsInDerefA n = false)
    (rho : SymAddr → Flavor) (a : SymAddr) (m : Flavor) :
    isValue (applyNode rho n (.wrapped a m)) = false := by
  cases n with
  | field f =>
    cases f with
    | none => simp [applyNode, isValue]
    | some ft =>
      cases ft with
      | named s => simp [applyNode, isValue]
      | tuple k => simp [applyNode, isValue]
      | deref => simp [endsInDerefA] at hn
  | idx e => simp [applyNode, isValue]
  | offset b ot v => simp [applyNode, isValue]
  | cast ty ar => simp [applyNode, isValue]
  | group inner =>
    have hni : endsInDerefL inner = false := by simpa [endsInDerefA] using hn
    cases inner with
    | nil => simp [applyNode, applyChain, finalizeVal, isValue]
    | cons c cl =>
      have hrec := applyChain_last_not_value (c :: cl) (by simp) hni rho (.wrapped a m)
      simp [applyNode, finalizeVal_isValue, hrec]
termination_by sizeOf n

/-- A nonempty chain not ending in a dereference leaves a non-value from
any starting state, because its last node acts on a cleansed (wrapper)
state. -/
theorem applyChain_last_not_value (L : List ElementAccess) (hne : L ≠ [])
    (hnd : endsInDerefL L = false) (rho : SymAddr → Flavor) (st : PtrVal) :
    isValue (applyChain rho L st) = false := by
  match L, hne, hnd with
  | [n], _, hnd =>
    have hn : endsInDerefA n = false := by simpa [endsInDerefL] using hnd
    obtain ⟨a, m, ham⟩ := (isClean_iff _).1 (cleanse_isClean rho st)
    simp only [applyChain, ham]
    exact applyNode_not_value n hn rho a m
  | n :: c :: cl, _, hnd =>
    have hrest : endsInDerefL (c :: cl) = false := by
      simpa [endsInDerefL] using hnd
    rw [applyChain_cons]
    exact applyChain_last_not_value (c :: cl) (by simp) hrest rho _
termination_by sizeOf L

end

/-- Claim C3 (amended): the generator's dirty flag is set by a
dereference node or by ANY group node (not only a group ending in a
dereference), and the re-wrap (`new_pointer`) before a node is emitted
exactly when the incoming dirty flag is set — hence exactly when the
directly preceding node was a dereference or a group, with more nodes
following.  What distinguishes a group not ending in a dereference is
semantic: its block still produces a pointer-shaped value (`into_inner`
of a wrapper, or a nested pointer result), not a read-out value. -/
theorem dirty_rewrap_amended :
    (∀ n : ElementAccess, setsDirty n = true ↔
      (n = .field (some .deref) ∨ ∃ G, n = .group G)) ∧
    (∀ (n : ElementAccess) (l : List ElementAccess) (d : Bool),
      n ≠ .field none →
      emitNodes (n :: l) d =
        (emitNodes l (setsDirty n)).withPre
          ((if d then [GenStmt.newPointer] else []) ++ nodeStmts n)) ∧
    (∀ (G : List ElementAccess) (rho : SymAddr → Flavor) (a : SymAddr) (m : Flavor),
      endsInDerefL G = false →
      isValue (applyNode rho (.group G) (.wrapped a m)) = false) := by
  refine ⟨?_, fun n l d h => emitNodes_cons n l d h, ?_⟩
  · intro n
    cases n with
    | field f =>
      cases f with
      | none => simp [setsDirty]
      | some ft => cases ft <;> simp [setsDirty]
    | idx e => simp [setsDirty]
    | offset b ot v => simp [setsDirty]
    | cast ty ar => simp [setsDirty]
    | group g => simp [setsDirty]
  · intro G rho a m h
    exact applyNode_not_value (.group G) (by simpa [endsInDerefA] using h) rho a m

/-- Witness for C3 (amended): the group `( as T )` sets the dirty flag,
the re-wrap is emitted before the following cast, and the group's
intermediate is still pointer-shaped. -/
theorem dirty_rewrap_amended_witness :
    (setsDirty (.group [ElementAccess.cast "T" false]) = true ↔
      (ElementAccess.group [.cast "T" false] = .field (some .deref) ∨
        ∃ G, ElementAccess.group [.cast "T" false] = .group G)) ∧
    emitNodes [ElementAccess.group [.cast "T" false], .cast "U" true] true =
      (emitNodes [ElementAccess.cast "U" true]
          (setsDirty (.group [ElementAccess.cast "T" false]))).withPre
        ((if true then [GenStmt.newPointer] else []) ++
          nodeStmts (.group [ElementAccess.cast "T" false])) ∧
    isValue (applyNode (fun _ => Flavor.const)
      (.group [ElementAccess.cast "T" false]) (.wrapped .base .mut)) = false := by
  refine ⟨dirty_rewrap_amended.1 _, ?_, ?_⟩
  · exact dirty_rewrap_amended.2.1 (.group [.cast "T" false]) [.cast "U" true] true (by simp)
  · exact dirty_rewrap_amended.2.2 [.cast "T" false] _ .base .mut
      (by simp [endsInDerefL, endsInDerefA])

/-- Counterexample to C3 as stated: in the chain `( as T ) as U =>` the
group does not end in a dereference, yet the generator marks the
intermediate dirty and the re-wrap `new_pointer` is emitted before the
next node — the claim admits the re-wrap only after a dereference or а
group ending in one. -/
theorem dirty_rewrap_counterexample :
    endsInDerefA (.group [ElementAccess.cast "T" false]) = false ∧
    setsDirty (.group [ElementAccess.cast "T" false]) = true ∧
    emitNodes [ElementAccess.group [.cast "T" false], .cast "U" true] false =
      .done [.bindBlock [.castStmt "T"] .intoInner, .newPointer, .castStmt "U"]
        false := by
  refine ⟨by simp [endsInDerefA, endsInDerefL], by simp [setsDirty], ?_⟩
  simp [emitNodes, nodeStmts, setsDirty, EmitRes.withPre]

/-- Claim C2 (amended): after processing all nodes, if the dirty flag is
set the generated expression is `ptr` — it evaluates to whatever the
binding holds, the held value itself; otherwise it is
`ptr.into_inner()`, converting the held wrapper into the concrete raw
pointer of the wrapper's CURRENT mutability marker.  That marker equals
the caller's original input flavor whenever the chain contains no
dereference; after a dereference of an inner pointer it is the flavor of
the pointer value that was read, not necessarily the original one. -/
theorem final_emission_amended (L : List ElementAccess) (hwf : wfL L = true) :
    ∀ s d2, emitNodes L false = .done s d2 →
      AccessListToTokens L = ⟨s, if d2 then .ptrDirect else .intoInner⟩ ∧
      (d2 = true → ∀ rho st,
        evalCode rho (AccessListToTokens L) st = runStmts rho s st) ∧
      (d2 = false → ∀ rho a m, ∃ a2 m2,
        runStmts rho s (.wrapped a m) = some (.wrapped a2 m2) ∧
        evalCode rho (AccessListToTokens L) (.wrapped a m) = some (.raw a2 m2) ∧
        (noDerefL L = true → m2 = m)) := by
  intro s d2 hemit
  have hcode : AccessListToTokens L = ⟨s, if d2 then .ptrDirect else .intoInner⟩ := by
    simp [AccessListToTokens, hemit]
  refine ⟨hcode, ?_, ?_⟩
  · rintro rfl rho st
    rw [hcode]
    simp only [evalCode, if_true]
    cases runStmts rho s st <;> simp [evalFinal]
  · rintro rfl rho a m
    have hrun := run_emitNodes L hwf false s false hemit rho (.wrapped a m)
      (by simp [isClean])
    obtain ⟨a2, m2, ham⟩ := (isClean_iff _).1 (by simpa using hrun.2)
    refine ⟨a2, m2, by rw [hrun.1, ham], ?_, ?_⟩
    · rw [eval_emit L hwf rho _ (by simp [isClean]), ham]
      rfl
    · intro hnd
      have hfl := applyChain_flavor L hnd rho m (.wrapped a m) (.inl ⟨a, rfl⟩)
      cases hfl with
      | inl h =>
        obtain ⟨a3, h⟩ := h
        rw [ham] at h
        injection h with h1 h2
      | inr h =>
        obtain ⟨a3, h⟩ := h
        rw [ham] at h
        exact absurd h (by simp)

/-- Witness for C2 (amended): the clean chain `as T =>` emits
`[cast]` with a clear dirty flag and its block is
`{ ...; ptr.into_inner() }`. -/
theorem final_emission_amended_witness :
    wfL [ElementAccess.cast "T" true] = true ∧
    emitNodes [ElementAccess.cast "T" true] false = .done [.castStmt "T"] false ∧
    AccessListToTokens [ElementAccess.cast "T" true] =
      ⟨[.castStmt "T"], if false then .ptrDirect else .intoInner⟩ := by
  refine ⟨by simp [wfL, wfA], ?_, ?_⟩
  · simp [emitNodes, nodeStmts, setsDirty, EmitRes.withPre]
  · exact (final_emission_amended [.cast "T" true] (by simp [wfL, wfA])
      [.castStmt "T"] false
      (by simp [emitNodes, nodeStmts, setsDirty, EmitRes.withPre])).1

/-- Counterexample to C2 as stated: over the chain `.*  as T =>` with a
read-only (`Const`) input pointer whose pointee is a mutable pointer, the
final `into_inner` returns the `Mut` raw pointer read out of memory — the
wrapper's current flavor — not a pointer of the caller's original
read-only flavor. -/
theorem final_emission_counterexample :
    evalCode (fun _ => Flavor.mut)
        (AccessListToTokens [.field (some .deref), .cast "T" true])
        (.wrapped .base .const) =
      some (.raw (.castTo (.readAt .base) "T") .mut) ∧
    Flavor.mut ≠ Flavor.const := by
  constructor
  · simp [AccessListToTokens, emitNodes, nodeStmts, setsDirty, EmitRes.withPre,
      evalCode, runStmts, stepStmt, evalFinal]
  · simp

/-- Claim C7: the Indexing Capability (`CanIndex`) is granted exactly to
fixed-length arrays and slices, each declaring its element type, and
`helper::index` computes the element address as the base address
reinterpreted as a pointer to the element type (`into_const` then
`cast::<T::E>`, address unchanged) and then advanced by `i` elements
(`add`, `i * size_of::<E>()` bytes), keeping the mutability flavor. -/
theorem index_element_address :
    (∀ T : Pointee, (canIndexElem T).isSome = true ↔
      ((∃ e l, T = .array e l) ∨ ∃ e, T = .slice e)) ∧
    (∀ T E : Pointee, canIndexElem T = some E → ∀ (p : HPtr) (i : Nat),
      helperIndex E.byteSize p i =
        ⟨specIndexAddr E.byteSize p i, p.flavor⟩) := by
  constructor
  · intro T
    cases T with
    | scalar s => simp [canIndexElem]
    | array e l => simp [canIndexElem]
    | slice e => simp [canIndexElem]
  · intro T E h p i
    simp [helperIndex, constAdd, constCast, intoConstAddr, specIndexAddr]

/-- Witness for C7: indexing a pointer to `[u32; 6]` (element size 4) at
address 100 with index 3 lands on address 112, keeping mutability. -/
theorem index_element_address_witness :
    canIndexElem (.array (.scalar 4) 6) = some (.scalar 4) ∧
    helperIndex (Pointee.scalar 4).byteSize ⟨100, .mut⟩ 3 =
      ⟨specIndexAddr (Pointee.scalar 4).byteSize ⟨100, .mut⟩ 3, Flavor.mut⟩ ∧
    specIndexAddr (Pointee.scalar 4).byteSize ⟨100, .mut⟩ 3 = 112 := by
  refine ⟨rfl, ?_, by simp [specIndexAddr, Pointee.byteSize]⟩
  exact index_element_address.2 (.array (.scalar 4) 6) (.scalar 4) rfl ⟨100, .mut⟩ 3

end ElementPtr
